import Mathlib

set_option maxRecDepth 10000

/-!
Verification development for the Orchard Action circuit core: a shallow embedding of

* `src/primitives/sinsemilla.rs` — the native Sinsemilla hash/commit primitive,
* `src/circuit/gadget/utilities/decompose_running_sum.rs` — the running-sum gadget,
* `src/circuit.rs` — the `q_orchard` gate, the public-input packing and the
  test-serialization reader,

together with theorems settling the frozen claims about the specification.

External collaborators (the Pallas curve group, hash-to-curve, the PLONK engine,
field/point byte codecs) are out of scope per the spec and appear as parameters.
-/

namespace Sinsemilla

/-- Domain separator used to derive the per-domain starting point `Q`
(`GROUP_HASH_Q` in src/primitives/sinsemilla.rs). -/
def GROUP_HASH_Q : String := "z.cash:SinsemillaQ"

/-- Domain separator used to derive the chunk points `S(i)`
(`GROUP_HASH_S` in src/primitives/sinsemilla.rs). -/
def GROUP_HASH_S : String := "z.cash:SinsemillaS"

/-- Bits per message chunk (`const K: usize = 10`). -/
def K : Nat := 10

/-- Maximum number of chunks per message (`const C: usize = 253`). -/
def C : Nat := 253

/-- The fold inside `lebs2ip_k`: `bits.iter().enumerate().fold(0, |acc, (i, b)| acc + if *b { 1 << i } else { 0 })`,
with the enumeration index carried explicitly. -/
def lebs2ip_aux (acc i : Nat) : List Bool → Nat
  | [] => acc
  | b :: bs => lebs2ip_aux (acc + if b then 1 <<< i else 0) (i + 1) bs

/-- Model of `lebs2ip_k` (src/primitives/sinsemilla.rs lines 14-19).
The source asserts `bits.len() == K`; theorems that rely on the chunk width carry
that bound as a hypothesis instead. -/
def lebs2ip_k (bits : List Bool) : Nat := lebs2ip_aux 0 0 bits

/-- The amount of padding the `Pad` iterator emits after an inner iterator of
the given length: `K - len % K` when `len` is not a multiple of `K`, else zero
(the computation in the `[]` branch of `padNext`). -/
def padAmt (len : Nat) : Nat := if len % K > 0 then K - len % K else 0

/-- State of the `Pad` iterator (src/primitives/sinsemilla.rs lines 23-42):
the remaining inner bits, the measured length so far, and the amount of padding
left to emit once the inner iterator has ended. -/
structure PadState where
  inner : List Bool
  len : Nat
  padding_left : Option Nat

/-- One call of `Pad::next` (src/primitives/sinsemilla.rs lines 47-78).
The Rust `loop` runs at most two iterations per call: when the inner iterator has
just ended it sets `padding_left` and loops once more, which is inlined in the
`[]` branch below.  `assert!(self.len <= K * C)` is not modelled; every theorem
about padding carries the length bound as a hypothesis, under which the
assertion can never fire. -/
def padNext (s : PadState) : Option (Bool × PadState) :=
  match s.padding_left with
  | some n =>
    if n = 0 then none
    else some (false, { s with padding_left := some (n - 1) })
  | none =>
    match s.inner with
    | b :: rest => some (b, { s with inner := rest, len := s.len + 1 })
    | [] =>
      let n := padAmt s.len
      if n = 0 then none
      else some (false, { s with inner := [], padding_left := some (n - 1) })

/-- Run the `Pad` iterator to exhaustion, with fuel (the iterator emits at most
`len + K - 1` items, so any fuel of at least `len + K` is exact). -/
def padRun : Nat → PadState → List Bool
  | 0, _ => []
  | fuel + 1, s =>
    match padNext s with
    | none => []
    | some (b, s') => b :: padRun fuel s'

/-- Model of `Pad::new(msg).collect::<Vec<_>>()` as used by `hash_to_point`. -/
def padCollect (msg : List Bool) : List Bool :=
  padRun (msg.length + K) { inner := msg, len := 0, padding_left := none }

/-- List analogue of `slice::chunks(K)` (used on the padded bits, whose length is
a multiple of `K`), with fuel; `chunks` instantiates the fuel with the list length,
which is sufficient since every step removes `K = 10` elements. -/
def chunksAux : Nat → List Bool → List (List Bool)
  | 0, _ => []
  | _, [] => []
  | fuel + 1, l => l.take K :: chunksAux fuel (l.drop K)

/-- The chunk decomposition `padded.chunks(K)` from `hash_to_point`. -/
def chunks (l : List Bool) : List (List Bool) := chunksAux l.length l

/-- Byte encoding of the ASCII domain strings, modelling `str::as_bytes`
(the domain separators are pure ASCII, so UTF-8 bytes coincide with code points). -/
def strBytes (s : String) : List Nat := s.toList.map Char.toNat

/-- Little-endian byte encoding of a `u32`, modelling `u32::to_le_bytes`. -/
def to_le_bytes_u32 (x : Nat) : List Nat :=
  [x % 256, x / 256 % 256, x / 256 ^ 2 % 256, x / 256 ^ 3 % 256]

/-- Model of `Q` (src/primitives/sinsemilla.rs lines 81-84):
`pallas::Point::hash_to_curve(GROUP_HASH_Q)(domain_prefix.as_bytes())`.
The curve group `G` and the hash-to-curve map are external collaborators and are
parameters of every point-valued definition. -/
def Q {G : Type} (hash_to_curve : String → List Nat → G) (dp : String) : G :=
  hash_to_curve GROUP_HASH_Q (strBytes dp)

/-- The closure `S` from `hash_to_point`: `hasher_S(&lebs2ip_k(chunk).to_le_bytes())`. -/
def S {G : Type} (hash_to_curve : String → List Nat → G) (chunk : List Bool) : G :=
  hash_to_curve GROUP_HASH_S (to_le_bytes_u32 (lebs2ip_k chunk))

/-- Model of `hash_to_point` (src/primitives/sinsemilla.rs lines 90-99):
pad the message, then fold `acc.double() + S(chunk)` over the `K`-bit chunks,
starting from `Q(domain_prefix)`. -/
def hash_to_point {G : Type} [AddCommGroup G]
    (hash_to_curve : String → List Nat → G) (dp : String) (msg : List Bool) : G :=
  let padded := padCollect msg
  (chunks padded).foldl (fun acc chunk => acc + acc + S hash_to_curve chunk)
    (Q hash_to_curve dp)

/-- Modelled from the spec: `crate::spec::extract_p` is not under src/.  Per the
spec (§4.3), point-extraction yields zero if the point is the identity and the
x-coordinate otherwise; the x-coordinate map is an external parameter. -/
def extract_p {G F : Type} [Zero G] [DecidableEq G] [Zero F]
    (x_coord : G → F) (P : G) : F :=
  if P = 0 then 0 else x_coord P

/-- Model of `hash` (src/primitives/sinsemilla.rs lines 104-106):
`extract_p(&hash_to_point(domain_prefix, msg))`. -/
def hash {G F : Type} [AddCommGroup G] [DecidableEq G] [Zero F]
    (hash_to_curve : String → List Nat → G) (x_coord : G → F)
    (dp : String) (msg : List Bool) : F :=
  extract_p x_coord (hash_to_point hash_to_curve dp msg)

/-- Model of `commit` (src/primitives/sinsemilla.rs lines 112-123):
`hash_to_point(domain_prefix || "-M", msg) + hash_to_curve(domain_prefix || "-r")([]) * r`.
The scalar is modelled as an integer acting on the abstract group. -/
def commit {G : Type} [AddCommGroup G]
    (hash_to_curve : String → List Nat → G) (dp : String) (msg : List Bool)
    (r : ℤ) : G :=
  let mDomain := dp ++ "-M"
  let rDomain := dp ++ "-r"
  let hasher_r := hash_to_curve rDomain
  hash_to_point hash_to_curve mDomain msg + r • hasher_r []

/-- Model of `short_commit` (src/primitives/sinsemilla.rs lines 128-134):
`extract_p(&commit(domain_prefix, msg, r))`. -/
def short_commit {G F : Type} [AddCommGroup G] [DecidableEq G] [Zero F]
    (hash_to_curve : String → List Nat → G) (x_coord : G → F)
    (dp : String) (msg : List Bool) (r : ℤ) : F :=
  extract_p x_coord (commit hash_to_curve dp msg r)

/-- The padding rule exactly as the spec words it (§4.3): append zero bits up to
the next multiple of `K`; a message whose length is already a multiple of `K`
receives zero padding.  This is the spec-side definition compared against the
source-side `padCollect`. -/
def padSpec (msg : List Bool) : List Bool :=
  msg ++ List.replicate ((K - msg.length % K) % K) false

/-- Chunk-to-integer conversion as the spec words it: little-endian over bits,
bit `i` having weight `2 ^ i`.  Spec-side definition compared against `lebs2ip_k`. -/
def lebs2ip_spec (bits : List Bool) : Nat :=
  ∑ i ∈ Finset.range bits.length, if bits.getD i false then 2 ^ i else 0

/-- The chunk-point family `S(i)` indexed by an integer, as the spec's algorithm
uses it (`S(LEB_to_integer(k_i))`). -/
def Sint {G : Type} (hash_to_curve : String → List Nat → G) (n : Nat) : G :=
  hash_to_curve GROUP_HASH_S (to_le_bytes_u32 n)

/-- The hash-to-point algorithm exactly as the spec words it (§4.3):
`acc ← Q(domain_prefix); for each K-bit chunk k_i in padded(msg): acc ← 2·acc + S(LEB_to_integer(k_i))`.
Spec-side definition compared against the source-side `hash_to_point`. -/
def hash_to_point_spec {G : Type} [AddCommGroup G]
    (hash_to_curve : String → List Nat → G) (dp : String) (msg : List Bool) : G :=
  (chunks (padSpec msg)).foldl
    (fun acc c => 2 • acc + Sint hash_to_curve (lebs2ip_spec c))
    (Q hash_to_curve dp)

end Sinsemilla

namespace RunningSum

/-- Modelled from the spec: `crate::constants::util::decompose_word` is not under
src/.  Per the spec (§4.4, "little-endian chunk extraction"), the low
`word_num_bits` bits of the word are zero-padded to a whole number of
`window_num_bits`-bit windows and read off little-endian: window `i` holds bits
`[k*i, k*i + k)` of the low `n` bits of the word, so there are `⌈n / k⌉`
windows. -/
def decompose_word (val n k : Nat) : List Nat :=
  (List.range ((n + k - 1) / k)).map (fun i => val % 2 ^ n / 2 ^ (k * i) % 2 ^ k)

/-- An assigned cell of the running-sum advice column `z`: its row and its value
(`CellValue<F>` specialised to the single column of this gadget). -/
structure CellValue (p : Nat) where
  row : Nat
  value : ZMod p

/-- The assignment loop of `RunningSumConfig::decompose`
(src/circuit/gadget/utilities/decompose_running_sum.rs lines 208-228): for each
window `w`, assign `z_next = (z_cur - w) * two_pow_k_inv` at the next row and
continue from it.  The witnessed path is modelled (`alpha` present); rows start
at `offset + 1`. -/
def decomposeLoop {p : Nat} (inv : ZMod p) : ZMod p → Nat → List (ZMod p) → List (CellValue p)
  | _, _, [] => []
  | z, row, w :: ws =>
    let znext := (z - w) * inv
    { row := row, value := znext } :: decomposeLoop inv znext (row + 1) ws

/-- Everything `decompose` does to the region, plus its return value:
the advice cells written to column `z` (in order), the rows at which
`q_range_check` and `q_strict` are enabled, the equality-permutation pairs
recorded by `copy`, and the returned `(z_0, zs)`. -/
structure DecomposeResult (p : Nat) where
  assignments : List (Nat × ZMod p)
  rangeCheckRows : List Nat
  strictRow : Option Nat
  copies : List (Nat × Nat)
  z0 : CellValue p
  zs : List (CellValue p)

/-- Model of `RunningSumConfig::decompose`
(src/circuit/gadget/utilities/decompose_running_sum.rs lines 154-231), on the
witnessed path.  `z_0` must be the cell at `(z, offset)`.  The source asserts
`WINDOW_NUM_BITS * num_windows < word_num_bits + WINDOW_NUM_BITS` and
`WINDOW_NUM_BITS <= 3` (in `configure`); the theorems carry both as hypotheses.
`two_pow_k_inv` models `F::from_u64(1 << WINDOW_NUM_BITS).invert().unwrap()`. -/
def decompose {p : Nat} (k offset : Nat) (z_0 : CellValue p) (strict : Bool)
    (word_num_bits num_windows : Nat) : DecomposeResult p :=
  let words : List (ZMod p) :=
    (decompose_word z_0.value.val word_num_bits k).map (fun (w : Nat) => (w : ZMod p))
  let two_pow_k_inv : ZMod p := (2 ^ k : ZMod p)⁻¹
  let zcells := decomposeLoop two_pow_k_inv z_0.value (offset + 1) words
  { assignments := zcells.map (fun c => (c.row, c.value))
    rangeCheckRows := (List.range num_windows).map (fun i => offset + i)
    strictRow := if strict then some (offset + num_windows) else none
    copies := []
    z0 := z_0
    zs := zcells }

/-- Model of `RunningSumConfig::witness_decompose`
(src/circuit/gadget/utilities/decompose_running_sum.rs lines 104-123):
assign `z_0 = alpha` at `(z, offset)`, then run `decompose`. -/
def witness_decompose {p : Nat} (k offset : Nat) (alpha : ZMod p) (strict : Bool)
    (word_num_bits num_windows : Nat) : DecomposeResult p :=
  let z_0 : CellValue p := { row := offset, value := alpha }
  let r := decompose k offset z_0 strict word_num_bits num_windows
  { r with assignments := (offset, alpha) :: r.assignments }

/-- Model of `RunningSumConfig::copy_decompose`
(src/circuit/gadget/utilities/decompose_running_sum.rs lines 129-147):
`copy` assigns the existing cell's value at `(z, offset)` and records an
equality-permutation constraint between the source cell and that row, then runs
`decompose`. -/
def copy_decompose {p : Nat} (k offset : Nat) (alpha : CellValue p) (strict : Bool)
    (word_num_bits num_windows : Nat) : DecomposeResult p :=
  let z_0 : CellValue p := { row := offset, value := alpha.value }
  let r := decompose k offset z_0 strict word_num_bits num_windows
  { r with
    assignments := (offset, alpha.value) :: r.assignments
    copies := [(alpha.row, offset)] }

/-- The value sitting in the running-sum column at logical index `i`
(row `offset + i`): index 0 is `z_0 = α`, index `i ≥ 1` is `zs[i-1]`.  The
`q_strict` gate reads index `num_windows`. -/
def zAt {p : Nat} (r : DecomposeResult p) (i : Nat) : ZMod p :=
  ((r.z0 :: r.zs).getD i { row := 0, value := 0 }).value

/-- Proof-side closed form of the running sum: `z_i` is the fold of the first
`i` windows through `z ↦ (z − w)·inv` starting from the initial value.
`decomposeLoop` is proven equal to this form; it is infrastructure for the
theorems, not a translation of source code. -/
def zClosed {p : Nat} (inv z : ZMod p) (ws : List (ZMod p)) (i : Nat) : ZMod p :=
  (ws.take i).foldl (fun acc w => (acc - w) * inv) z

end RunningSum

namespace OrchardCircuit

/-- The halo2 `Expression` polynomial AST, restricted to the constructors the
`q_orchard` gate uses: constants, advice queries (column, rotation) and selector
queries. -/
inductive Expr (F : Type) where
  | const : F → Expr F
  | advice : Nat → Int → Expr F
  | sel : Nat → Expr F
  | add : Expr F → Expr F → Expr F
  | sub : Expr F → Expr F → Expr F
  | mul : Expr F → Expr F → Expr F

/-- Evaluation of a gate polynomial at a row, given the advice assignment
(column, rotation ↦ value) and the selector assignment. -/
def Expr.eval {F : Type} [CommRing F] (adv : Nat → Int → F) (s : Nat → F) :
    Expr F → F
  | .const c => c
  | .advice c r => adv c r
  | .sel i => s i
  | .add a b => a.eval adv s + b.eval adv s
  | .sub a b => a.eval adv s - b.eval adv s
  | .mul a b => a.eval adv s * b.eval adv s

/-- Index of the single user selector `q_orchard`. -/
def q_orchard : Nat := 0

/-- The four named constraint polynomials of the "Orchard circuit checks" gate
(src/circuit.rs lines 153-185), before multiplication by the selector.  Advice
columns 0..7 are queried at the current rotation as `v_old`, `v_new`,
`magnitude`, `sign`, `anchor`, `pub_input_anchor`, `enable_spends` (column 6,
via `1 - enable_spends`) and `enable_outputs` (column 7). -/
def orchard_constraints (F : Type) [CommRing F] : List (String × Expr F) :=
  let v_old : Expr F := Expr.advice 0 0
  let v_new : Expr F := Expr.advice 1 0
  let magnitude : Expr F := Expr.advice 2 0
  let sign : Expr F := Expr.advice 3 0
  let anchor : Expr F := Expr.advice 4 0
  let pub_input_anchor : Expr F := Expr.advice 5 0
  let one : Expr F := Expr.const 1
  let not_enable_spends : Expr F := Expr.sub one (Expr.advice 6 0)
  let not_enable_outputs : Expr F := Expr.sub one (Expr.advice 7 0)
  [ ("v_old - v_new = magnitude * sign",
      Expr.sub (Expr.sub v_old v_new) (Expr.mul magnitude sign)),
    ("Either v_old = 0, or anchor equals public input",
      Expr.mul v_old (Expr.sub anchor pub_input_anchor)),
    ("v_old = 0 or enable_spends = 1",
      Expr.mul v_old not_enable_spends),
    ("v_new = 0 or enable_outputs = 1",
      Expr.mul v_new not_enable_outputs) ]

/-- Model of halo2's `Constraints::with_selector` (external, documented
behaviour): multiply every constraint polynomial by the selector expression. -/
def constraints_with_selector {F : Type} (s : Expr F) (cs : List (String × Expr F)) :
    List (String × Expr F) :=
  cs.map (fun c => (c.1, Expr.mul s c.2))

/-- The polynomials of the gate created by `meta.create_gate("Orchard circuit checks", ...)`
(src/circuit.rs lines 153-185): the four constraints gated by `q_orchard`. -/
def orchard_gate (F : Type) [CommRing F] : List (String × Expr F) :=
  constraints_with_selector (Expr.sel q_orchard) (orchard_constraints F)

/-- Absolute offset of the anchor in the public-input column (src/circuit.rs line 67). -/
def ANCHOR : Nat := 0

/-- Absolute offset of the value-commitment x-coordinate (line 68). -/
def CV_NET_X : Nat := 1

/-- Absolute offset of the value-commitment y-coordinate (line 69). -/
def CV_NET_Y : Nat := 2

/-- Absolute offset of the old note's nullifier (line 70). -/
def NF_OLD : Nat := 3

/-- Absolute offset of the randomized verification key x-coordinate (line 71). -/
def RK_X : Nat := 4

/-- Absolute offset of the randomized verification key y-coordinate (line 72). -/
def RK_Y : Nat := 5

/-- Absolute offset of the new note commitment x-coordinate (line 73). -/
def CMX : Nat := 6

/-- Absolute offset of the enable-spends flag (line 74). -/
def ENABLE_SPEND : Nat := 7

/-- Absolute offset of the enable-outputs flag (line 75). -/
def ENABLE_OUTPUT : Nat := 8

/-- The public inputs of one Action (`struct Instance`, src/circuit.rs lines
687-696).  Field elements live in `F` (vesta scalars = pallas base); the
value-commitment point and the decoded `rk` point live in the abstract point
type `Pt`; the verification key is the abstract type `RKT`. -/
structure Instance (F Pt RKT : Type) where
  anchor : F
  cv_net : Pt
  nf_old : F
  rk : RKT
  cmx : F
  enable_spend : Bool
  enable_output : Bool

/-- Model of `Instance::to_halo2_instance` (src/circuit.rs lines 726-748):
start from nine zeros, write each public value at its named offset, and return
the single-column matrix.  `px`/`py` extract point coordinates;
`rk_point` models `pallas::Point::from_bytes(&rk.into()).unwrap().to_affine().coordinates().unwrap()`
(an external decode chain).  The booleans are embedded via `u64::from(bool)`,
i.e. `true ↦ 1`, `false ↦ 0`. -/
def to_halo2_instance {F Pt RKT : Type} [Zero F] [One F]
    (px py : Pt → F) (rk_point : RKT → Pt) (i : Instance F Pt RKT) :
    List (List F) :=
  let inst0 := List.replicate 9 (0 : F)
  let inst1 := inst0.set ANCHOR i.anchor
  let inst2 := inst1.set CV_NET_X (px i.cv_net)
  let inst3 := inst2.set CV_NET_Y (py i.cv_net)
  let inst4 := inst3.set NF_OLD i.nf_old
  let rk := rk_point i.rk
  let inst5 := inst4.set RK_X (px rk)
  let inst6 := inst5.set RK_Y (py rk)
  let inst7 := inst6.set CMX i.cmx
  let inst8 := inst7.set ENABLE_SPEND (if i.enable_spend then 1 else 0)
  let inst9 := inst8.set ENABLE_OUTPUT (if i.enable_output then 1 else 0)
  [inst9]

/-- Outcome of running `read_test_case` (src/circuit.rs lines 985-1017) on a
byte stream: a normal return carrying the parsed instance and the proof bytes,
an `io::Error` returned to the caller, or a Rust panic (the function never
returns; `unwrap`/`panic!` in the source). -/
inductive ReadOutcome (I : Type) where
  | ok : I → List Nat → ReadOutcome I
  | ioError : ReadOutcome I
  | panicked : String → ReadOutcome I

/-- Model of the `read_32_bytes` closure: `read_exact` on a 32-byte buffer,
`none` when the stream is too short (in which case the source `unwrap`s the
`io::Error` and panics). -/
def read_32_bytes (r : List Nat) : Option (List Nat × List Nat) :=
  if 32 ≤ r.length then some (r.take 32, r.drop 32) else none

/-- Model of the `read_bool` closure (src/circuit.rs lines 991-999): read one
byte, map `[0]` to `false` and `[1]` to `true`, and panic (left summand, with
the panic message) on a short read or on any other byte value. -/
def read_bool (r : List Nat) : String ⊕ (Bool × List Nat) :=
  match r with
  | [] => Sum.inl ("read_exact")
  | b :: rest =>
    if b = 0 then Sum.inr (false, rest)
    else if b = 1 then Sum.inr (true, rest)
    else Sum.inl ("Unexpected non-boolean byte")

/-- Model of `read_test_case` (src/circuit.rs lines 985-1017) over a byte list.
Each 32-byte field is decoded by an external parser (`Anchor::from_bytes`,
`ValueCommitment::from_bytes`, `Nullifier::from_bytes`, the `rk` `try_into`,
`ExtractedNoteCommitment::from_bytes`), whose failure the source `unwrap`s into
a panic; the two flag bytes go through `read_bool`.  `read_to_end` always
succeeds on an in-memory stream and yields the remaining bytes as the proof, so
the `ioError` outcome (an `io::Result` error actually returned to the caller)
is never produced. -/
def read_test_case {F Pt RKT : Type}
    (parseAnchor : List Nat → Option F) (parseCvNet : List Nat → Option Pt)
    (parseNf : List Nat → Option F) (parseRk : List Nat → Option RKT)
    (parseCmx : List Nat → Option F) (r : List Nat) :
    ReadOutcome (Instance F Pt RKT) :=
  match read_32_bytes r with
  | none => ReadOutcome.panicked ("read_exact")
  | some (b1, r) =>
  match parseAnchor b1 with
  | none => ReadOutcome.panicked ("unwrap")
  | some anchor =>
  match read_32_bytes r with
  | none => ReadOutcome.panicked ("read_exact")
  | some (b2, r) =>
  match parseCvNet b2 with
  | none => ReadOutcome.panicked ("unwrap")
  | some cv_net =>
  match read_32_bytes r with
  | none => ReadOutcome.panicked ("read_exact")
  | some (b3, r) =>
  match parseNf b3 with
  | none => ReadOutcome.panicked ("unwrap")
  | some nf_old =>
  match read_32_bytes r with
  | none => ReadOutcome.panicked ("read_exact")
  | some (b4, r) =>
  match parseRk b4 with
  | none => ReadOutcome.panicked ("unwrap")
  | some rk =>
  match read_32_bytes r with
  | none => ReadOutcome.panicked ("read_exact")
  | some (b5, r) =>
  match parseCmx b5 with
  | none => ReadOutcome.panicked ("unwrap")
  | some cmx =>
  match read_bool r with
  | Sum.inl msg => ReadOutcome.panicked msg
  | Sum.inr (enable_spend, r) =>
  match read_bool r with
  | Sum.inl msg => ReadOutcome.panicked msg
  | Sum.inr (enable_output, r) =>
    ReadOutcome.ok
      { anchor := anchor, cv_net := cv_net, nf_old := nf_old, rk := rk
        cmx := cmx, enable_spend := enable_spend, enable_output := enable_output } r

end OrchardCircuit

/-- The modulus 13 used by the concrete witnesses and counterexamples of the
running-sum theorems is prime, so `ZMod 13` is a field. -/
instance : Fact (Nat.Prime 13) := ⟨by norm_num⟩

/-!
## Lemmas about the Pad iterator and chunk conversion
-/

theorem padAmt_le (len : Nat) : Sinsemilla.padAmt len ≤ Sinsemilla.K := by
  simp only [Sinsemilla.padAmt, Sinsemilla.K]
  split <;> omega

theorem padRun_some (n : Nat) : ∀ (fuel len : Nat) (inner : List Bool), n ≤ fuel →
    Sinsemilla.padRun fuel { inner := inner, len := len, padding_left := some n } =
      List.replicate n false := by
  induction n with
  | zero =>
    intro fuel len inner _
    cases fuel with
    | zero => rfl
    | succ fuel => simp [Sinsemilla.padRun, Sinsemilla.padNext]
  | succ m ih =>
    intro fuel len inner h
    cases fuel with
    | zero => omega
    | succ fuel =>
      simp only [Sinsemilla.padRun, Sinsemilla.padNext, Nat.succ_ne_zero, if_false,
        Nat.add_sub_cancel, List.replicate_succ]
      exact congrArg (List.cons false) (ih fuel len inner (Nat.le_of_succ_le_succ h))

theorem padRun_none_nil (len fuel : Nat) (h : Sinsemilla.padAmt len ≤ fuel) :
    Sinsemilla.padRun fuel { inner := [], len := len, padding_left := none } =
      List.replicate (Sinsemilla.padAmt len) false := by
  cases fuel with
  | zero =>
    have h0 : Sinsemilla.padAmt len = 0 := Nat.le_zero.mp h
    rw [h0]
    rfl
  | succ fuel =>
    by_cases h0 : Sinsemilla.padAmt len = 0
    · simp [Sinsemilla.padRun, Sinsemilla.padNext, h0]
    · simp only [Sinsemilla.padRun, Sinsemilla.padNext, h0, if_false]
      rw [padRun_some (Sinsemilla.padAmt len - 1) fuel len [] (by omega)]
      rw [← List.replicate_succ]
      congr 1
      omega

theorem padRun_none (msg : List Bool) : ∀ (len fuel : Nat),
    msg.length + Sinsemilla.K ≤ fuel →
    Sinsemilla.padRun fuel { inner := msg, len := len, padding_left := none } =
      msg ++ List.replicate (Sinsemilla.padAmt (len + msg.length)) false := by
  induction msg with
  | nil =>
    intro len fuel h
    have hK : Sinsemilla.padAmt len ≤ fuel := by
      have h2 := padAmt_le len
      simp only [List.length_nil, Nat.zero_add] at h
      omega
    rw [padRun_none_nil len fuel hK]
    simp
  | cons b bs ih =>
    intro len fuel h
    cases fuel with
    | zero =>
      exfalso
      simp [Sinsemilla.K] at h
    | succ fuel =>
      simp only [Sinsemilla.padRun, Sinsemilla.padNext]
      rw [ih (len + 1) fuel (by simp only [List.length_cons] at h; omega)]
      have h1 : len + 1 + bs.length = len + (b :: bs).length := by
        simp only [List.length_cons]
        omega
      rw [h1, List.cons_append]

theorem padCollect_eq (msg : List Bool) :
    Sinsemilla.padCollect msg =
      msg ++ List.replicate (Sinsemilla.padAmt msg.length) false := by
  unfold Sinsemilla.padCollect
  rw [padRun_none msg 0 (msg.length + Sinsemilla.K) le_rfl]
  simp

theorem padAmt_eq_spec (len : Nat) :
    Sinsemilla.padAmt len = (Sinsemilla.K - len % Sinsemilla.K) % Sinsemilla.K := by
  simp only [Sinsemilla.padAmt, Sinsemilla.K]
  split <;> omega

theorem padCollect_eq_padSpec (msg : List Bool) :
    Sinsemilla.padCollect msg = Sinsemilla.padSpec msg := by
  rw [padCollect_eq, Sinsemilla.padSpec, padAmt_eq_spec]

theorem lebs2ip_aux_eq (bs : List Bool) : ∀ (acc i : Nat),
    Sinsemilla.lebs2ip_aux acc i bs =
      acc + ∑ j ∈ Finset.range bs.length,
        (if bs.getD j false then 2 ^ (i + j) else 0) := by
  induction bs with
  | nil => intro acc i; simp [Sinsemilla.lebs2ip_aux]
  | cons b bs ih =>
    intro acc i
    rw [Sinsemilla.lebs2ip_aux, ih, List.length_cons, Finset.sum_range_succ']
    simp only [List.getD_cons_succ, List.getD_cons_zero, Nat.add_zero,
      Nat.shiftLeft_eq, Nat.one_mul]
    have h2 : ∀ j : Nat, i + 1 + j = i + (j + 1) := by omega
    simp only [h2]
    ring

theorem lebs2ip_k_eq_spec (bits : List Bool) :
    Sinsemilla.lebs2ip_k bits = Sinsemilla.lebs2ip_spec bits := by
  rw [Sinsemilla.lebs2ip_k, lebs2ip_aux_eq, Sinsemilla.lebs2ip_spec]
  simp

/-!
## Claim theorems for the Sinsemilla primitive
-/

/-- Claim C3: for every domain prefix and boolean message of length at most
`K·C` bits, `hash_to_point` equals the fold that starts from `Q(domain_prefix)`
and replaces the accumulator by `2·acc + S(lebs2ip(k_i))` for each successive
`K`-bit chunk of the zero-padded message, with `lebs2ip` little-endian. -/
theorem claim_C3 {G : Type} [AddCommGroup G]
    (hash_to_curve : String → List Nat → G) (dp : String) (msg : List Bool)
    (h : msg.length ≤ Sinsemilla.K * Sinsemilla.C) :
    Sinsemilla.hash_to_point hash_to_curve dp msg =
      Sinsemilla.hash_to_point_spec hash_to_curve dp msg := by
  simp only [Sinsemilla.hash_to_point, Sinsemilla.hash_to_point_spec]
  rw [padCollect_eq_padSpec]
  apply List.foldl_ext
  intro acc c _
  rw [two_nsmul, Sinsemilla.S, Sinsemilla.Sint, lebs2ip_k_eq_spec]

/-- Witness for C3, at the one-bit message and a concrete group. -/
theorem claim_C3_witness :
    Sinsemilla.hash_to_point (G := ℤ) (fun _ _ => 0) "zc" [true] =
      Sinsemilla.hash_to_point_spec (G := ℤ) (fun _ _ => 0) "zc" [true] :=
  claim_C3 (fun _ _ => 0) "zc" [true] (by decide)

/-- Claim C6: padding an input of length `L ≤ K·C` yields `⌈L/K⌉·K` bits, the
appended suffix consists only of `false`, and an input whose length is a
multiple of `K` (including the empty input) is returned unchanged. -/
theorem claim_C6 (msg : List Bool) (h : msg.length ≤ Sinsemilla.K * Sinsemilla.C) :
    (Sinsemilla.padCollect msg).length =
      ((msg.length + Sinsemilla.K - 1) / Sinsemilla.K) * Sinsemilla.K ∧
    (∃ pad, Sinsemilla.padCollect msg = msg ++ List.replicate pad false) ∧
    (msg.length % Sinsemilla.K = 0 → Sinsemilla.padCollect msg = msg) := by
  refine ⟨?_, ⟨Sinsemilla.padAmt msg.length, padCollect_eq msg⟩, ?_⟩
  · rw [padCollect_eq, List.length_append, List.length_replicate]
    simp only [Sinsemilla.padAmt, Sinsemilla.K]
    split <;> omega
  · intro h0
    rw [padCollect_eq]
    simp only [Sinsemilla.padAmt, h0]
    simp

/-- Witness for C6, at a one-bit input. -/
theorem claim_C6_witness :
    ((Sinsemilla.padCollect [true]).length =
      (([true].length + Sinsemilla.K - 1) / Sinsemilla.K) * Sinsemilla.K ∧
    (∃ pad, Sinsemilla.padCollect [true] = [true] ++ List.replicate pad false) ∧
    ([true].length % Sinsemilla.K = 0 → Sinsemilla.padCollect [true] = [true])) :=
  claim_C6 [true] (by decide)

/-- Claim C10: `hash_to_point` on the empty message is exactly the starting
point `Q(domain_prefix)`, and hence `hash` of the empty message is the
x-extraction of `Q(domain_prefix)`. -/
theorem claim_C10 {G F : Type} [AddCommGroup G] [DecidableEq G] [Zero F]
    (hash_to_curve : String → List Nat → G) (x_coord : G → F) (dp : String) :
    Sinsemilla.hash_to_point hash_to_curve dp [] = Sinsemilla.Q hash_to_curve dp ∧
    Sinsemilla.hash hash_to_curve x_coord dp [] =
      Sinsemilla.extract_p x_coord (Sinsemilla.Q hash_to_curve dp) := by
  have h : Sinsemilla.hash_to_point hash_to_curve dp [] =
      Sinsemilla.Q hash_to_curve dp := rfl
  exact ⟨h, by rw [Sinsemilla.hash, h]⟩

/-- Claim C7: `commit` is `hash_to_point` on the `"-M"`-suffixed domain plus
`r` times the hash-to-curve point of the `"-r"`-suffixed domain on the empty
byte string, and `short_commit` is its x-extraction, yielding zero on the
identity. -/
theorem claim_C7 {G F : Type} [AddCommGroup G] [DecidableEq G] [Zero F]
    (hash_to_curve : String → List Nat → G) (x_coord : G → F)
    (dp : String) (msg : List Bool) (r : ℤ) :
    Sinsemilla.commit hash_to_curve dp msg r =
      Sinsemilla.hash_to_point hash_to_curve (dp ++ "-M") msg +
        r • hash_to_curve (dp ++ "-r") [] ∧
    Sinsemilla.short_commit hash_to_curve x_coord dp msg r =
      Sinsemilla.extract_p x_coord (Sinsemilla.commit hash_to_curve dp msg r) ∧
    (Sinsemilla.commit hash_to_curve dp msg r = 0 →
      Sinsemilla.short_commit hash_to_curve x_coord dp msg r = 0) := by
  refine ⟨rfl, rfl, fun h => ?_⟩
  rw [Sinsemilla.short_commit, h]
  simp [Sinsemilla.extract_p]

/-- Witness for C7, at the zero hash-to-curve map where the commitment is the
identity point. -/
theorem claim_C7_witness :
    Sinsemilla.short_commit (G := ℤ) (F := ℤ) (fun _ _ => 0) (fun _ => 0)
      "zc" [] 3 = 0 :=
  (claim_C7 (fun _ _ => 0) (fun _ => 0) "zc" [] 3).2.2 (by
    show Sinsemilla.hash_to_point (G := ℤ) (fun _ _ => 0) ("zc" ++ "-M") [] +
      (3 : ℤ) • (0 : ℤ) = 0
    rw [smul_zero]
    simp [Sinsemilla.hash_to_point, Sinsemilla.padCollect, Sinsemilla.padRun,
      Sinsemilla.padNext, Sinsemilla.padAmt, Sinsemilla.chunks,
      Sinsemilla.chunksAux, Sinsemilla.Q])

/-!
## Claim theorems for the circuit gate and public-input packing
-/

/-- Claim C1: whenever `q_orchard` is enabled at a row (selector value 1), the
"Orchard circuit checks" gate consists of exactly four polynomials over advice
columns 0..7 at the current rotation, and their vanishing is equivalent to the
four constraints `v_old − v_new − magnitude·sign = 0`,
`v_old·(anchor − pub_input_anchor) = 0`, `v_old·(1 − enable_spends) = 0`, and
`v_new·(1 − enable_outputs) = 0`, with columns 0..7 holding `v_old`, `v_new`,
`magnitude`, `sign`, `anchor`, `pub_input_anchor`, `enable_spends`,
`enable_outputs` respectively. -/
theorem claim_C1 {F : Type} [CommRing F] (adv : Nat → Int → F) (s : Nat → F)
    (hq : s OrchardCircuit.q_orchard = 1) :
    (OrchardCircuit.orchard_gate F).length = 4 ∧
    ((∀ c ∈ OrchardCircuit.orchard_gate F,
        OrchardCircuit.Expr.eval adv s c.2 = 0) ↔
      (adv 0 0 - adv 1 0 - adv 2 0 * adv 3 0 = 0 ∧
       adv 0 0 * (adv 4 0 - adv 5 0) = 0 ∧
       adv 0 0 * (1 - adv 6 0) = 0 ∧
       adv 1 0 * (1 - adv 7 0) = 0)) := by
  constructor
  · rfl
  · simp [OrchardCircuit.orchard_gate, OrchardCircuit.orchard_constraints,
      OrchardCircuit.constraints_with_selector, OrchardCircuit.Expr.eval, hq]

/-- Witness for C1, at the all-zero advice assignment with the selector on. -/
theorem claim_C1_witness :
    (OrchardCircuit.orchard_gate ℤ).length = 4 ∧
    ((∀ c ∈ OrchardCircuit.orchard_gate ℤ,
        OrchardCircuit.Expr.eval (fun _ _ => (0 : ℤ)) (fun _ => 1) c.2 = 0) ↔
      ((0 : ℤ) - 0 - 0 * 0 = 0 ∧
       (0 : ℤ) * (0 - 0) = 0 ∧
       (0 : ℤ) * (1 - 0) = 0 ∧
       (0 : ℤ) * (1 - 0) = 0)) :=
  claim_C1 (fun _ _ => 0) (fun _ => 1) rfl

/-- Claim C5: `to_halo2_instance` produces exactly nine field elements in one
column, holding the anchor, the coordinates of `cv_net`, the nullifier, the
coordinates of the decoded `rk`, `cmx`, and the two enable flags encoded as 0
or 1, at absolute offsets 0..8. -/
theorem claim_C5 {F Pt RKT : Type} [Zero F] [One F]
    (px py : Pt → F) (rk_point : RKT → Pt) (i : OrchardCircuit.Instance F Pt RKT) :
    OrchardCircuit.to_halo2_instance px py rk_point i =
      [[i.anchor, px i.cv_net, py i.cv_net, i.nf_old,
        px (rk_point i.rk), py (rk_point i.rk), i.cmx,
        if i.enable_spend then 1 else 0,
        if i.enable_output then 1 else 0]] := rfl

/-!
## Lemmas about the running-sum gadget
-/

theorem zClosed_zero {p : Nat} (inv z : ZMod p) (ws : List (ZMod p)) :
    RunningSum.zClosed inv z ws 0 = z := rfl

theorem zClosed_succ {p : Nat} (inv z : ZMod p) (ws : List (ZMod p)) (i : Nat)
    (h : i < ws.length) :
    RunningSum.zClosed inv z ws (i + 1) =
      (RunningSum.zClosed inv z ws i - ws.getD i 0) * inv := by
  unfold RunningSum.zClosed
  rw [List.take_succ, List.foldl_append, List.getElem?_eq_getElem h]
  simp [List.getD_eq_getElem?_getD, List.getElem?_eq_getElem h]

theorem decomposeLoop_length {p : Nat} (inv : ZMod p) :
    ∀ (ws : List (ZMod p)) (z : ZMod p) (row : Nat),
      (RunningSum.decomposeLoop inv z row ws).length = ws.length := by
  intro ws
  induction ws with
  | nil => intro z row; rfl
  | cons w ws ih =>
    intro z row
    simp only [RunningSum.decomposeLoop, List.length_cons]
    rw [ih ((z - w) * inv) (row + 1)]

theorem decomposeLoop_getD {p : Nat} (inv : ZMod p) :
    ∀ (ws : List (ZMod p)) (z : ZMod p) (row j : Nat) (d : RunningSum.CellValue p),
      j < ws.length →
      (RunningSum.decomposeLoop inv z row ws).getD j d =
        { row := row + j, value := RunningSum.zClosed inv z ws (j + 1) } := by
  intro ws
  induction ws with
  | nil =>
    intro z row j d h
    simp at h
  | cons w ws ih =>
    intro z row j d h
    cases j with
    | zero =>
      simp [RunningSum.decomposeLoop, RunningSum.zClosed]
    | succ j =>
      simp only [RunningSum.decomposeLoop, List.getD_cons_succ]
      rw [ih ((z - w) * inv) (row + 1) j d (by simpa using h)]
      have hrow : row + 1 + j = row + (j + 1) := by omega
      rw [hrow]
      rfl

theorem decompose_word_length (val n k : Nat) :
    (RunningSum.decompose_word val n k).length = (n + k - 1) / k := by
  simp [RunningSum.decompose_word]

theorem decompose_word_getD (val n k j : Nat) (hj : j < (n + k - 1) / k) :
    (RunningSum.decompose_word val n k).getD j 0 =
      val % 2 ^ n / 2 ^ (k * j) % 2 ^ k := by
  unfold RunningSum.decompose_word
  rw [List.getD_eq_getElem?_getD, List.getElem?_map, List.getElem?_range hj]
  simp

theorem getD_map_cast {p : Nat} (l : List Nat) (j : Nat) :
    (l.map (fun (w : Nat) => (w : ZMod p))).getD j 0 = ((l.getD j 0 : Nat) : ZMod p) := by
  rw [List.getD_eq_getElem?_getD, List.getElem?_map, List.getD_eq_getElem?_getD]
  cases h : l[j]? <;> simp

theorem zAt_witness {p : Nat} (k offset n W : Nat) (α : ZMod p) (strict : Bool)
    (i : Nat) (hi : i ≤ (n + k - 1) / k) :
    RunningSum.zAt (RunningSum.witness_decompose k offset α strict n W) i =
      RunningSum.zClosed ((2 : ZMod p) ^ k)⁻¹ α
        ((RunningSum.decompose_word α.val n k).map (fun (w : Nat) => (w : ZMod p))) i := by
  cases i with
  | zero => rfl
  | succ j =>
    have hj : j < ((RunningSum.decompose_word α.val n k).map
        (fun (w : Nat) => (w : ZMod p))).length := by
      rw [List.length_map, decompose_word_length]
      omega
    simp only [RunningSum.zAt, RunningSum.witness_decompose, RunningSum.decompose,
      List.getD_cons_succ]
    rw [decomposeLoop_getD ((2 : ZMod p) ^ k)⁻¹ _ α (offset + 1) j _ hj]

theorem digit_sum (b x W : Nat) :
    ∑ j ∈ Finset.range W, x / b ^ j % b * b ^ j = x % b ^ W := by
  induction W with
  | zero => simp [Nat.mod_one]
  | succ W ih =>
    rw [Finset.sum_range_succ, ih, Nat.mod_pow_succ]
    ring

theorem zClosed_mul_pow {p : Nat} [Fact p.Prime] (hp2 : (2 : ZMod p) ≠ 0)
    (k : Nat) (z : ZMod p) (ws : List (ZMod p)) :
    ∀ i, i ≤ ws.length →
      RunningSum.zClosed ((2 : ZMod p) ^ k)⁻¹ z ws i * ((2 : ZMod p) ^ k) ^ i =
        z - ∑ j ∈ Finset.range i, ws.getD j 0 * ((2 : ZMod p) ^ k) ^ j := by
  intro i
  induction i with
  | zero => simp [RunningSum.zClosed]
  | succ i ih =>
    intro h
    have hi : i < ws.length := by omega
    have hb : ((2 : ZMod p) ^ k) ≠ 0 := pow_ne_zero _ hp2
    have hinv : ((2 : ZMod p) ^ k)⁻¹ * (2 : ZMod p) ^ k = 1 := inv_mul_cancel₀ hb
    rw [zClosed_succ _ _ _ _ hi, Finset.sum_range_succ, pow_succ]
    calc (RunningSum.zClosed ((2 : ZMod p) ^ k)⁻¹ z ws i - ws.getD i 0) *
          ((2 : ZMod p) ^ k)⁻¹ * (((2 : ZMod p) ^ k) ^ i * (2 : ZMod p) ^ k)
      = (RunningSum.zClosed ((2 : ZMod p) ^ k)⁻¹ z ws i * ((2 : ZMod p) ^ k) ^ i -
          ws.getD i 0 * ((2 : ZMod p) ^ k) ^ i) *
          (((2 : ZMod p) ^ k)⁻¹ * (2 : ZMod p) ^ k) := by ring
      _ = RunningSum.zClosed ((2 : ZMod p) ^ k)⁻¹ z ws i * ((2 : ZMod p) ^ k) ^ i -
          ws.getD i 0 * ((2 : ZMod p) ^ k) ^ i := by rw [hinv, mul_one]
      _ = z - ∑ j ∈ Finset.range i, ws.getD j 0 * ((2 : ZMod p) ^ k) ^ j -
          ws.getD i 0 * ((2 : ZMod p) ^ k) ^ i := by rw [ih (le_of_lt hi)]
      _ = z - (∑ j ∈ Finset.range i, ws.getD j 0 * ((2 : ZMod p) ^ k) ^ j +
          ws.getD i 0 * ((2 : ZMod p) ^ k) ^ i) := by ring

theorem words_sum {p : Nat} (val n k W : Nat) (hW : W ≤ (n + k - 1) / k) :
    ∑ j ∈ Finset.range W,
      ((RunningSum.decompose_word val n k).map (fun (w : Nat) => (w : ZMod p))).getD j 0 *
        ((2 : ZMod p) ^ k) ^ j =
      ((val % 2 ^ n % 2 ^ (k * W) : Nat) : ZMod p) := by
  have hterm : ∀ j ∈ Finset.range W,
      ((RunningSum.decompose_word val n k).map (fun (w : Nat) => (w : ZMod p))).getD j 0 *
        ((2 : ZMod p) ^ k) ^ j =
      ((val % 2 ^ n / (2 ^ k) ^ j % 2 ^ k * (2 ^ k) ^ j : Nat) : ZMod p) := by
    intro j hj
    have hjm : j < (n + k - 1) / k := lt_of_lt_of_le (Finset.mem_range.mp hj) hW
    rw [getD_map_cast, decompose_word_getD val n k j hjm, pow_mul]
    push_cast
    ring
  rw [Finset.sum_congr rfl hterm, ← Nat.cast_sum, digit_sum, ← pow_mul]

theorem mod_mod_eq_self_iff (x a b : Nat) (ha : 0 < a) (hb : 0 < b) :
    x % a % b = x ↔ (x < a ∧ x < b) := by
  constructor
  · intro h
    have h1 : x % a % b ≤ x % a := Nat.mod_le _ _
    have h2 : x % a ≤ x := Nat.mod_le _ _
    have hxa : x < a := by
      by_contra hge
      push_neg at hge
      have h3 : x % a < a := Nat.mod_lt _ ha
      omega
    refine ⟨hxa, ?_⟩
    by_contra hge
    push_neg at hge
    have h3 : x % a = x := Nat.mod_eq_of_lt hxa
    rw [h3] at h
    have h4 : x % b < b := Nat.mod_lt _ hb
    omega
  · intro h
    rw [Nat.mod_eq_of_lt h.1, Nat.mod_eq_of_lt h.2]

theorem zAt_eq_zero_iff {p : Nat} [Fact p.Prime] (hp2 : (2 : ZMod p) ≠ 0)
    (k n W offset : Nat) (hk : 0 < k) (hpre : k * W < n + k)
    (α : ZMod p) (strict : Bool) :
    (RunningSum.zAt (RunningSum.witness_decompose k offset α strict n W) W = 0 ↔
      (α.val < 2 ^ n ∧ α.val < 2 ^ (k * W))) := by
  haveI : NeZero p := ⟨(Fact.out : p.Prime).ne_zero⟩
  have hW : W ≤ (n + k - 1) / k := by
    rw [Nat.le_div_iff_mul_le hk, Nat.mul_comm W k]
    omega
  have hb : ((2 : ZMod p) ^ k) ≠ 0 := pow_ne_zero _ hp2
  have hbW : (((2 : ZMod p) ^ k) ^ W) ≠ 0 := pow_ne_zero _ hb
  have hlen : W ≤ ((RunningSum.decompose_word α.val n k).map
      (fun (w : Nat) => (w : ZMod p))).length := by
    rw [List.length_map, decompose_word_length]
    exact hW
  have heq := zClosed_mul_pow hp2 k α
    ((RunningSum.decompose_word α.val n k).map (fun (w : Nat) => (w : ZMod p))) W hlen
  rw [words_sum α.val n k W hW] at heq
  rw [zAt_witness k offset n W α strict W hW]
  set low : Nat := α.val % 2 ^ n % 2 ^ (k * W) with hlow
  have hlow_le : low ≤ α.val := le_trans (Nat.mod_le _ _) (Nat.mod_le _ _)
  have hlow_lt : low < p := lt_of_le_of_lt hlow_le (ZMod.val_lt α)
  have hiff1 : RunningSum.zClosed ((2 : ZMod p) ^ k)⁻¹ α
      ((RunningSum.decompose_word α.val n k).map (fun (w : Nat) => (w : ZMod p))) W = 0 ↔
      α = ((low : Nat) : ZMod p) := by
    constructor
    · intro h0
      rw [h0, zero_mul] at heq
      have h1 : α - ((low : Nat) : ZMod p) = 0 := heq.symm
      have h2 := sub_eq_zero.mp h1
      exact h2
    · intro h0
      have h1 : α - ((low : Nat) : ZMod p) = 0 := by rw [h0]; ring
      rw [h1] at heq
      rcases mul_eq_zero.mp heq with h2 | h2
      · exact h2
      · exact absurd h2 hbW
  have hiff2 : α = ((low : Nat) : ZMod p) ↔ α.val = low := by
    constructor
    · intro h0
      rw [h0, ZMod.val_cast_of_lt hlow_lt]
    · intro h0
      have h1 : ((α.val : Nat) : ZMod p) = α := ZMod.natCast_rightInverse α
      rw [← h0, h1]
  rw [hiff1, hiff2, hlow]
  have h3 := mod_mod_eq_self_iff α.val (2 ^ n) (2 ^ (k * W))
    (Nat.pos_pow_of_pos n (by omega)) (Nat.pos_pow_of_pos (k * W) (by omega))
  rw [eq_comm]
  exact h3

/-!
## Claim theorems for the running-sum gadget
-/

/-- Claim C2 (amended): under the precondition `k·W < n + k`, strict
decomposition of `α` enables the `final z = 0` gate at logical index `W`
(row `offset + W`), and the value there is zero — i.e. strict decomposition
succeeds — exactly when `α < 2^{kW}` **and** `α < 2^n`; in particular for every
`α ≥ 2^{kW}` strict decomposition fails.  (The claim as frozen asserts success
for every `α < 2^{kW}`; that fails when `kW > n`, because `decompose_word`
reads only the low `n` bits of `α` — see the counterexample.) -/
theorem claim_C2_amended (p k n W offset : Nat) [Fact p.Prime]
    (hp2 : (2 : ZMod p) ≠ 0) (hk : 0 < k) (hk3 : k ≤ 3)
    (hpre : k * W < n + k) (α : ZMod p) :
    (RunningSum.witness_decompose k offset α true n W).strictRow =
      some (offset + W) ∧
    (α.val < 2 ^ (k * W) ∧ α.val < 2 ^ n →
      RunningSum.zAt (RunningSum.witness_decompose k offset α true n W) W = 0) ∧
    (2 ^ (k * W) ≤ α.val →
      RunningSum.zAt (RunningSum.witness_decompose k offset α true n W) W ≠ 0) := by
  have hiff := zAt_eq_zero_iff hp2 k n W offset hk hpre α true
  refine ⟨rfl, ?_, ?_⟩
  · intro h
    exact hiff.mpr ⟨h.2, h.1⟩
  · intro hge h0
    have h1 := (hiff.mp h0).2
    omega

/-- Counterexample to Claim C2 as frozen: over `ZMod 13` with `k = 2`, `n = 3`,
`W = 2`, the precondition `2·2 < 3 + 2` holds and `α = 8 < 2^{kW} = 16`, yet
the final running-sum value `z_W` is nonzero (it is `2⁻¹ · 8 · 4⁻¹ = 7`), so
strict decomposition fails: bit 3 of `α` lies outside the low `n = 3` bits that
`decompose_word` reads. -/
theorem claim_C2_counterexample :
    2 * 2 < 3 + 2 ∧ (8 : ZMod 13).val < 2 ^ (2 * 2) ∧
    RunningSum.zAt (RunningSum.witness_decompose 2 0 (8 : ZMod 13) true 3 2) 2 ≠ 0 := by
  refine ⟨by decide, by decide, ?_⟩
  have hinv : ((2 : ZMod 13) ^ 2)⁻¹ = 10 := inv_eq_of_mul_eq_one_right (by decide)
  simp only [RunningSum.zAt, RunningSum.witness_decompose, RunningSum.decompose, hinv]
  decide

/-- Witness for the amended C2, at `p = 13`, `k = 2`, `n = 4`, `W = 2`, `α = 5`. -/
theorem claim_C2_witness :
    (RunningSum.witness_decompose 2 0 (5 : ZMod 13) true 4 2).strictRow =
      some (0 + 2) ∧
    ((5 : ZMod 13).val < 2 ^ (2 * 2) ∧ (5 : ZMod 13).val < 2 ^ 4 →
      RunningSum.zAt (RunningSum.witness_decompose 2 0 (5 : ZMod 13) true 4 2) 2 = 0) ∧
    (2 ^ (2 * 2) ≤ (5 : ZMod 13).val →
      RunningSum.zAt (RunningSum.witness_decompose 2 0 (5 : ZMod 13) true 4 2) 2 ≠ 0) :=
  claim_C2_amended 13 2 4 2 0 (by decide) (by decide) (by decide) (by decide) 5

/-- Claim C4 (amended): `witness_decompose` assigns `z_0 = α` at `(z, offset)`
and returns that cell first, followed by the assignments of the running-sum
cells; it returns `⌈n/k⌉` running-sum values (not `num_windows` of them — under
the precondition `k·W < n + k` one only has `W ≤ ⌈n/k⌉`, with equality iff
`n ≤ k·W`), at rows `offset + i + 1`, satisfying
`z_{i+1} = (z_i − k_i)·(2^k)⁻¹` where `k_i` is the `i`-th `k`-bit window of the
low `n` bits of `α`; `copy_decompose` produces the same result except that it
additionally records the equality-permutation pair binding the existing cell to
row `offset`. -/
theorem claim_C4_amended (p k n W offset : Nat) (hk : 0 < k) (hk3 : k ≤ 3)
    (hpre : k * W < n + k) (α : ZMod p) (strict : Bool)
    (cell : RunningSum.CellValue p) :
    (RunningSum.witness_decompose k offset α strict n W).z0 =
      { row := offset, value := α } ∧
    (RunningSum.witness_decompose k offset α strict n W).assignments =
      (offset, α) :: (RunningSum.witness_decompose k offset α strict n W).zs.map
        (fun c => (c.row, c.value)) ∧
    (RunningSum.witness_decompose k offset α strict n W).zs.length =
      (n + k - 1) / k ∧
    W ≤ (RunningSum.witness_decompose k offset α strict n W).zs.length ∧
    (∀ i, i < (RunningSum.witness_decompose k offset α strict n W).zs.length →
      ((RunningSum.witness_decompose k offset α strict n W).zs.getD i
        { row := 0, value := 0 }).row = offset + i + 1) ∧
    (∀ i, i < (RunningSum.witness_decompose k offset α strict n W).zs.length →
      RunningSum.zAt (RunningSum.witness_decompose k offset α strict n W) (i + 1) =
        (RunningSum.zAt (RunningSum.witness_decompose k offset α strict n W) i -
          (((RunningSum.decompose_word α.val n k).getD i 0 : Nat) : ZMod p)) *
          ((2 : ZMod p) ^ k)⁻¹) ∧
    RunningSum.copy_decompose k offset cell strict n W =
      { RunningSum.witness_decompose k offset cell.value strict n W with
        copies := [(cell.row, offset)] } := by
  have hlen : (RunningSum.witness_decompose k offset α strict n W).zs.length =
      (n + k - 1) / k := by
    simp only [RunningSum.witness_decompose, RunningSum.decompose]
    rw [decomposeLoop_length, List.length_map, decompose_word_length]
  refine ⟨rfl, rfl, hlen, ?_, ?_, ?_, rfl⟩
  · rw [hlen, Nat.le_div_iff_mul_le hk, Nat.mul_comm W k]
    omega
  · intro i hi
    rw [hlen] at hi
    have hi2 : i < ((RunningSum.decompose_word α.val n k).map
        (fun (w : Nat) => (w : ZMod p))).length := by
      rw [List.length_map, decompose_word_length]
      exact hi
    simp only [RunningSum.witness_decompose, RunningSum.decompose]
    rw [decomposeLoop_getD _ _ α (offset + 1) i _ hi2]
    show offset + 1 + i = offset + i + 1
    omega
  · intro i hi
    rw [hlen] at hi
    rw [zAt_witness k offset n W α strict (i + 1) (by omega),
      zAt_witness k offset n W α strict i (by omega)]
    rw [zClosed_succ _ _ _ i
      (by rw [List.length_map, decompose_word_length]; exact hi)]
    rw [getD_map_cast]

/-- Counterexample to Claim C4 as frozen: with `k = 2`, `n = 5`, `W = 2` over
`ZMod 13`, the precondition `2·2 < 5 + 2` holds, yet `witness_decompose`
returns `⌈5/2⌉ = 3` running-sum values, not exactly `W = 2`: the loop iterates
over every window of the `n`-bit word, not over `num_windows` of them. -/
theorem claim_C4_counterexample :
    2 * 2 < 5 + 2 ∧
    (RunningSum.witness_decompose 2 0 (0 : ZMod 13) false 5 2).zs.length ≠ 2 :=
  ⟨by decide, by decide⟩

/-- Witness for the amended C4, at `p = 13`, `k = 2`, `n = 4`, `W = 2`,
`α = 5`, `offset = 0`, a strict run, and an existing cell `(7, 3)`. -/
theorem claim_C4_witness :
    (RunningSum.witness_decompose 2 0 (5 : ZMod 13) true 4 2).z0 =
      { row := 0, value := (5 : ZMod 13) } ∧
    (RunningSum.witness_decompose 2 0 (5 : ZMod 13) true 4 2).assignments =
      (0, (5 : ZMod 13)) ::
        (RunningSum.witness_decompose 2 0 (5 : ZMod 13) true 4 2).zs.map
          (fun c => (c.row, c.value)) ∧
    (RunningSum.witness_decompose 2 0 (5 : ZMod 13) true 4 2).zs.length =
      (4 + 2 - 1) / 2 ∧
    2 ≤ (RunningSum.witness_decompose 2 0 (5 : ZMod 13) true 4 2).zs.length ∧
    (∀ i, i < (RunningSum.witness_decompose 2 0 (5 : ZMod 13) true 4 2).zs.length →
      ((RunningSum.witness_decompose 2 0 (5 : ZMod 13) true 4 2).zs.getD i
        { row := 0, value := 0 }).row = 0 + i + 1) ∧
    (∀ i, i < (RunningSum.witness_decompose 2 0 (5 : ZMod 13) true 4 2).zs.length →
      RunningSum.zAt (RunningSum.witness_decompose 2 0 (5 : ZMod 13) true 4 2) (i + 1) =
        (RunningSum.zAt (RunningSum.witness_decompose 2 0 (5 : ZMod 13) true 4 2) i -
          (((RunningSum.decompose_word (5 : ZMod 13).val 4 2).getD i 0 : Nat) : ZMod 13)) *
          ((2 : ZMod 13) ^ 2)⁻¹) ∧
    RunningSum.copy_decompose 2 0 { row := 7, value := (3 : ZMod 13) } true 4 2 =
      { RunningSum.witness_decompose 2 0
          ({ row := 7, value := (3 : ZMod 13) } : RunningSum.CellValue 13).value true 4 2 with
        copies := [(({ row := 7, value := (3 : ZMod 13) } : RunningSum.CellValue 13).row, 0)] } :=
  claim_C4_amended 13 2 4 2 0 (by decide) (by decide) (by decide) 5 true
    { row := 7, value := (3 : ZMod 13) }

/-!
## Lemmas and claim theorems for the test-serialization reader
-/

theorem read_32_bytes_append (b rest : List Nat) (hb : b.length = 32) :
    OrchardCircuit.read_32_bytes (b ++ rest) = some (b, rest) := by
  unfold OrchardCircuit.read_32_bytes
  rw [List.length_append, hb, if_pos (by omega)]
  rw [List.take_left' hb, List.drop_left' hb]

/-- Claim C8 (amended): at the test-serialization boundary, for every input
byte stream whose `enable_spend` or `enable_output` byte is neither 0 nor 1
(and whose five 32-byte fields decode), `read_test_case` panics with
`"Unexpected non-boolean byte"` — it terminates the process rather than
returning success or an `io::Error` to the caller. -/
theorem claim_C8_amended {F Pt RKT : Type}
    (parseAnchor : List Nat → Option F) (parseCvNet : List Nat → Option Pt)
    (parseNf : List Nat → Option F) (parseRk : List Nat → Option RKT)
    (parseCmx : List Nat → Option F)
    (a c n r m : List Nat) (ha : a.length = 32) (hc : c.length = 32)
    (hn : n.length = 32) (hr : r.length = 32) (hm : m.length = 32)
    (hA : (parseAnchor a).isSome) (hC : (parseCvNet c).isSome)
    (hN : (parseNf n).isSome) (hR : (parseRk r).isSome) (hM : (parseCmx m).isSome)
    (es eo : Nat) (rest : List Nat)
    (hbyte : (es ≠ 0 ∧ es ≠ 1) ∨ ((es = 0 ∨ es = 1) ∧ eo ≠ 0 ∧ eo ≠ 1)) :
    OrchardCircuit.read_test_case parseAnchor parseCvNet parseNf parseRk parseCmx
      (a ++ (c ++ (n ++ (r ++ (m ++ es :: eo :: rest))))) =
      OrchardCircuit.ReadOutcome.panicked ("Unexpected non-boolean byte") := by
  obtain ⟨va, hva⟩ := Option.isSome_iff_exists.mp hA
  obtain ⟨vc, hvc⟩ := Option.isSome_iff_exists.mp hC
  obtain ⟨vn, hvn⟩ := Option.isSome_iff_exists.mp hN
  obtain ⟨vr, hvr⟩ := Option.isSome_iff_exists.mp hR
  obtain ⟨vm, hvm⟩ := Option.isSome_iff_exists.mp hM
  have h1 := read_32_bytes_append a (c ++ (n ++ (r ++ (m ++ es :: eo :: rest)))) ha
  have h2 := read_32_bytes_append c (n ++ (r ++ (m ++ es :: eo :: rest))) hc
  have h3 := read_32_bytes_append n (r ++ (m ++ es :: eo :: rest)) hn
  have h4 := read_32_bytes_append r (m ++ es :: eo :: rest) hr
  have h5 := read_32_bytes_append m (es :: eo :: rest) hm
  rcases hbyte with ⟨hes0, hes1⟩ | ⟨hes, heo0, heo1⟩
  · simp [OrchardCircuit.read_test_case, h1, h2, h3, h4, h5, hva, hvc, hvn, hvr,
      hvm, OrchardCircuit.read_bool, hes0, hes1]
  · rcases hes with rfl | rfl <;>
      simp [OrchardCircuit.read_test_case, h1, h2, h3, h4, h5, hva, hvc, hvn, hvr,
        hvm, OrchardCircuit.read_bool, heo0, heo1]

/-- Counterexample to Claim C8 as frozen: on a byte stream whose
`enable_spend` byte is `2` (with all five 32-byte fields decoding), the source
does not report an encoding error to the caller — it panics with
`"Unexpected non-boolean byte"`. -/
theorem claim_C8_counterexample :
    @OrchardCircuit.read_test_case Unit Unit Unit
      (fun _ => some ()) (fun _ => some ()) (fun _ => some ()) (fun _ => some ())
      (fun _ => some ()) (List.replicate 160 0 ++ [2, 1]) =
      OrchardCircuit.ReadOutcome.panicked ("Unexpected non-boolean byte") ∧
    @OrchardCircuit.read_test_case Unit Unit Unit
      (fun _ => some ()) (fun _ => some ()) (fun _ => some ()) (fun _ => some ())
      (fun _ => some ()) (List.replicate 160 0 ++ [2, 1]) ≠
      OrchardCircuit.ReadOutcome.ioError :=
  ⟨rfl, fun h => OrchardCircuit.ReadOutcome.noConfusion h⟩

/-- Witness for the amended C8, at the all-zero 32-byte fields with
`enable_spend` byte 2. -/
theorem claim_C8_witness :
    @OrchardCircuit.read_test_case Unit Unit Unit
      (fun _ => some ()) (fun _ => some ()) (fun _ => some ()) (fun _ => some ())
      (fun _ => some ())
      (List.replicate 32 0 ++ (List.replicate 32 0 ++ (List.replicate 32 0 ++
        (List.replicate 32 0 ++ (List.replicate 32 0 ++ 2 :: 1 :: []))))) =
      OrchardCircuit.ReadOutcome.panicked ("Unexpected non-boolean byte") :=
  claim_C8_amended (fun _ => some ()) (fun _ => some ()) (fun _ => some ())
    (fun _ => some ()) (fun _ => some ())
    (List.replicate 32 0) (List.replicate 32 0) (List.replicate 32 0)
    (List.replicate 32 0) (List.replicate 32 0)
    (by decide) (by decide) (by decide) (by decide) (by decide)
    rfl rfl rfl rfl rfl 2 1 []
    (Or.inl ⟨by decide, by decide⟩)
